import Mathlib

/-!
Verification of the endgame library core: finite-field arithmetic
(src/crypto/field.rs), the binary Merkle authentication tree
(src/crypto/merkle.rs), and the Reed-Solomon accumulator
(src/accumulator/reed_solomon.rs).

Machine integers are modelled as Nat (the Rust values involved never
exceed their machine width at the points where the source relies on it;
where the source reduces mod the field prime, so do we). Byte strings
are List Nat with entries below 256. Rust operations that can abort the
process (integer remainder by zero, out-of-bounds indexing and slicing,
the explicit panic in field division) are modelled by an Except monad
over an explicit Panic type, written out as plain matches.

Randomness (FieldElement::random) is modelled by passing the sampled
raw values in as parameters, so theorems quantify over all sampling
outcomes.
-/

/-! ## SHA-256 over byte lists (the sha2 crate dependency of merkle.rs) -/

def w32 : Nat := 4294967296

def rotr (x n : Nat) : Nat := (x >>> n ||| x <<< (32 - n)) % w32

def shaCh (x y z : Nat) : Nat := (x &&& y) ^^^ ((x ^^^ 4294967295) &&& z)

def shaMaj (x y z : Nat) : Nat := (x &&& y) ^^^ (x &&& z) ^^^ (y &&& z)

def bigSigma0 (x : Nat) : Nat := rotr x 2 ^^^ rotr x 13 ^^^ rotr x 22

def bigSigma1 (x : Nat) : Nat := rotr x 6 ^^^ rotr x 11 ^^^ rotr x 25

def smallSigma0 (x : Nat) : Nat := rotr x 7 ^^^ rotr x 18 ^^^ (x >>> 3)

def smallSigma1 (x : Nat) : Nat := rotr x 17 ^^^ rotr x 19 ^^^ (x >>> 10)

def shaK : List Nat :=
  [1116352408, 1899447441, 3049323471, 3921009573, 961987163, 1508970993,
   2453635748, 2870763221, 3624381080, 310598401, 607225278, 1426881987,
   1925078388, 2162078206, 2614888103, 3248222580, 3835390401, 4022224774,
   264347078, 604807628, 770255983, 1249150122, 1555081692, 1996064986,
   2554220882, 2821834349, 2952996808, 3210313671, 3336571891, 3584528711,
   113926993, 338241895, 666307205, 773529912, 1294757372, 1396182291,
   1695183700, 1986661051, 2177026350, 2456956037, 2730485921, 2820302411,
   3259730800, 3345764771, 3516065817, 3600352804, 4094571909, 275423344,
   430227734, 506948616, 659060556, 883997877, 958139571, 1322822218,
   1537002063, 1747873779, 1955562222, 2024104815, 2227730452, 2361852424,
   2428436474, 2756734187, 3204031479, 3329325298]

def shaH0 : List Nat :=
  [1779033703, 3144134277, 1013904242, 2773480762,
   1359893119, 2600822924, 528734635, 1541459225]

def toBE8 (n : Nat) : List Nat :=
  [n >>> 56 % 256, n >>> 48 % 256, n >>> 40 % 256, n >>> 32 % 256,
   n >>> 24 % 256, n >>> 16 % 256, n >>> 8 % 256, n % 256]

def padMessage (msg : List Nat) : List Nat :=
  msg ++ [128] ++ List.replicate ((119 - msg.length % 64) % 64) 0
      ++ toBE8 (8 * msg.length)

def bytesToWords : List Nat → List Nat
  | a :: b :: c :: d :: rest => (a <<< 24 ||| b <<< 16 ||| c <<< 8 ||| d) :: bytesToWords rest
  | _ => []

def wordsToBytes : List Nat → List Nat
  | [] => []
  | w :: rest => (w >>> 24 % 256) :: (w >>> 16 % 256) :: (w >>> 8 % 256) :: (w % 256) :: wordsToBytes rest

def schedule (block : List Nat) : List Nat :=
  (List.range 48).foldl
    (fun w _ =>
      let n := w.length
      w ++ [(smallSigma1 (w.getD (n - 2) 0) + w.getD (n - 7) 0
             + smallSigma0 (w.getD (n - 15) 0) + w.getD (n - 16) 0) % w32])
    block

def compressBlock (hs : List Nat) (block : List Nat) : List Nat :=
  let w := schedule block
  let st := (List.range 64).foldl
    (fun st t =>
      match st with
      | [a, b, c, d, e, f, g, h] =>
        let t1 := (h + bigSigma1 e + shaCh e f g + shaK.getD t 0 + w.getD t 0) % w32
        let t2 := (bigSigma0 a + shaMaj a b c) % w32
        [(t1 + t2) % w32, a, b, c, (d + t1) % w32, e, f, g]
      | other => other)
    hs
  match hs, st with
  | [h0, h1, h2, h3, h4, h5, h6, h7], [a, b, c, d, e, f, g, h] =>
    [(h0 + a) % w32, (h1 + b) % w32, (h2 + c) % w32, (h3 + d) % w32,
     (h4 + e) % w32, (h5 + f) % w32, (h6 + g) % w32, (h7 + h) % w32]
  | _, _ => st

def shaBlocks (hs : List Nat) (ws : List Nat) : Nat → List Nat
  | 0 => hs
  | fuel + 1 =>
    match ws with
    | [] => hs
    | _ => shaBlocks (compressBlock hs (ws.take 16)) (ws.drop 16) fuel

def sha256 (msg : List Nat) : List Nat :=
  let padded := padMessage msg
  wordsToBytes (shaBlocks shaH0 (bytesToWords padded) padded.length)

/-! ## The field layer (src/crypto/field.rs)

FieldElement stores a u64 residue; we model an element by that residue
as a Nat. FieldElement::random draws a raw u64; it is modelled by
fieldRandom applied to the raw draw. -/

def FIELD_PRIME : Nat := 2147483647

def fieldNew (v : Nat) : Nat := v % FIELD_PRIME

def fieldZero : Nat := 0

def fieldOne : Nat := 1

def fieldRandom (raw : Nat) : Nat := fieldNew raw

def fieldAdd (a b : Nat) : Nat :=
  let sum := a + b
  fieldNew (if sum ≥ FIELD_PRIME then sum - FIELD_PRIME else sum)

def fieldSub (a b : Nat) : Nat :=
  fieldNew (if a ≥ b then a - b else FIELD_PRIME - (b - a))

def fieldMul (a b : Nat) : Nat := fieldNew (a * b % FIELD_PRIME)

/-- The square-and-multiply loop inside FieldElement::pow, with the
loop counter made explicit as structural fuel; pow supplies fuel equal
to the starting exponent, which bounds the iteration count. Note the
source initialises result to self (not to one) before the loop. -/
def powLoop : Nat → Nat → Nat → Nat → Nat
  | 0, _, result, _ => result
  | fuel + 1, e, result, base =>
    if e > 1 then
      powLoop fuel (e / 2) (if e % 2 == 1 then fieldMul result base else result) (fieldMul base base)
    else if e == 1 then fieldMul result base else result

def fieldPow (a e : Nat) : Nat :=
  if e == 0 then fieldOne else powLoop e e a a

def fieldInverse (a : Nat) : Option Nat :=
  if a == 0 then none else some (fieldPow a (FIELD_PRIME - 2))

/-- The possible process aborts of the modelled code: Rust integer
remainder by a zero divisor, an out-of-range slice bound, the explicit
panic in the Div implementation, and out-of-bounds Vec indexing. -/
inductive Panic where
  | remainderByZero
  | sliceOutOfRange
  | divisionByZero
  | indexOutOfRange
deriving DecidableEq

/-- Division from the Div impl for FieldElement: multiply by the
inverse when it exists, otherwise the source executes
panic!("Division by zero"), aborting the process; the abort is the
error branch here. -/
def fieldDiv (a b : Nat) : Except Panic Nat :=
  match fieldInverse b with
  | some inv => Except.ok (fieldMul a inv)
  | none => Except.error Panic.divisionByZero

/-! ## The Merkle tree (src/crypto/merkle.rs) -/

structure MerkleTree where
  nodes : List (List Nat)
  leaf_count : Nat

def zeroHash : List Nat := List.replicate 32 0

/-- The node array of MerkleTree::new for a non-empty leaf list:
allocate 2n-1 zero hashes, write the hashed leaves into the last n
slots, then fill internal nodes downward from n-2 to 0 as the hash of
left child 2i+1 followed by right child 2i+2. -/
def buildNodes (leaves : List (List Nat)) : List (List Nat) :=
  let n := leaves.length
  let init := List.replicate (2 * n - 1) zeroHash
  let withLeaves := (List.range n).foldl
    (fun nodes i => nodes.set (n - 1 + i) (sha256 (leaves.getD i []))) init
  ((List.range (n - 1)).reverse).foldl
    (fun nodes i => nodes.set i (sha256 (nodes.getD (2 * i + 1) [] ++ nodes.getD (2 * i + 2) []))) withLeaves

def MerkleTree.new (leaves : List (List Nat)) : MerkleTree :=
  if leaves.length == 0 then { nodes := [zeroHash], leaf_count := 0 }
  else { nodes := buildNodes leaves, leaf_count := leaves.length }

def MerkleTree.root (t : MerkleTree) : List Nat := t.nodes.getD 0 []

/-- The climb loop of generate_proof, fuel-bounded: from the current
node, record the sibling chosen by node-index parity and step to the
heap parent (current - 1) / 2 until reaching the root. The fuel
supplied by generate_proof exceeds the iteration count, which is at
most the starting node index. -/
def genProofLoop (nodes : List (List Nat)) : Nat → Nat → List (List Nat) → List (List Nat)
  | 0, _, proof => proof
  | fuel + 1, current, proof =>
    if current > 0 then
      let sibling := if current % 2 == 0 then current - 1 else current + 1
      let proof2 := if sibling < nodes.length then proof ++ [nodes.getD sibling []] else proof
      genProofLoop nodes fuel ((current - 1) / 2) proof2
    else proof

def MerkleTree.generate_proof (t : MerkleTree) (index : Nat) : List (List Nat) :=
  if index ≥ t.leaf_count then []
  else genProofLoop t.nodes (t.leaf_count + index) (t.leaf_count - 1 + index) []

def verifyStep (st : List Nat × Nat) (pe : List Nat) : List Nat × Nat :=
  if st.2 % 2 == 0 then (sha256 (st.1 ++ pe), st.2 / 2)
  else (sha256 (pe ++ st.1), st.2 / 2)

def MerkleTree.verify_proof (root leaf : List Nat) (proof : List (List Nat)) (index : Nat) : Bool :=
  (proof.foldl verifyStep (sha256 leaf, index)).1 == root

/-! ## The Reed-Solomon accumulator (src/accumulator/reed_solomon.rs) -/

def EVAL_DOMAIN_SIZE : Nat := 256

def NUM_CHALLENGES : Nat := 2

structure RSAcc where
  evaluations : List Nat
  domain : List Nat
  degree : Nat
  merkle_root : List Nat

structure RSProof where
  challenge_evals : List Nat
  challenge_points : List Nat
  domain_evals : List Nat
  eval_indices : List Nat
  merkle_root : List Nat
  merkle_proofs : List (List (List Nat))

/-- Rust Vec indexing: panics (aborts) when the index is out of
bounds. -/
def vecG {α : Type} (xs : List α) (i : Nat) : Except Panic α :=
  match xs[i]? with
  | some a => Except.ok a
  | none => Except.error Panic.indexOutOfRange

/-- Effectful map over a list, short-circuiting on the first panic. -/
def mapExc {α β : Type} (f : α → Except Panic β) : List α → Except Panic (List β)
  | [] => Except.ok []
  | a :: as =>
    match f a with
    | Except.error e => Except.error e
    | Except.ok b =>
      match mapExc f as with
      | Except.error e => Except.error e
      | Except.ok bs => Except.ok (b :: bs)

/-- The direct-lookup loop at the top of evaluate_at: scan positions
start, start+1, ... for rem steps; when x equals the domain value the
stored evaluation at that position is returned immediately. -/
def findEval (domain evals : List Nat) (x : Nat) : Nat → Nat → Except Panic (Option Nat)
  | _, 0 => Except.ok none
  | i, rem + 1 =>
    match vecG domain i with
    | Except.error e => Except.error e
    | Except.ok d =>
      if x == d then
        match vecG evals i with
        | Except.error e => Except.error e
        | Except.ok ev => Except.ok (some ev)
      else findEval domain evals x (i + 1) rem

/-- The inner weight loop of evaluate_at for a fixed i: multiply in
(x - domain j) / (domain i - domain j) for every j other than i. The
second component counts field divisions performed. -/
def weightLoop (domain : List Nat) (x i : Nat) : Nat → Nat → Nat → Nat → Except Panic (Nat × Nat)
  | _, 0, weight, divs => Except.ok (weight, divs)
  | j, rem + 1, weight, divs =>
    if i ≠ j then
      match vecG domain j with
      | Except.error e => Except.error e
      | Except.ok dj =>
        match vecG domain i with
        | Except.error e => Except.error e
        | Except.ok di =>
          match fieldDiv (fieldMul weight (fieldSub x dj)) (fieldSub di dj) with
          | Except.error e => Except.error e
          | Except.ok q => weightLoop domain x i (j + 1) rem q (divs + 1)
    else weightLoop domain x i (j + 1) rem weight divs

/-- The outer loop of evaluate_at accumulating the running numerator
and denominator; the last component counts field divisions. -/
def outerLoop (domain evals : List Nat) (x deg : Nat) : Nat → Nat → Nat → Nat → Nat → Except Panic (Nat × Nat × Nat)
  | _, 0, num, den, divs => Except.ok (num, den, divs)
  | i, rem + 1, num, den, divs =>
    match weightLoop domain x i 0 deg 1 divs with
    | Except.error e => Except.error e
    | Except.ok wd =>
      match vecG evals i with
      | Except.error e => Except.error e
      | Except.ok ei =>
        outerLoop domain evals x deg (i + 1) rem
          (fieldAdd num (fieldMul wd.1 ei)) (fieldAdd den wd.1) wd.2

/-- Barycentric evaluation (evaluate_at), returning the value together
with the number of field divisions the call performed. -/
def evaluateAt (acc : RSAcc) (x : Nat) : Except Panic (Nat × Nat) :=
  if acc.degree == 0 then Except.ok (fieldZero, 0)
  else
    match findEval acc.domain acc.evaluations x 0 acc.degree with
    | Except.error e => Except.error e
    | Except.ok (some ev) => Except.ok (ev, 0)
    | Except.ok none =>
      match outerLoop acc.domain acc.evaluations x acc.degree 0 acc.degree 0 0 0 with
      | Except.error e => Except.error e
      | Except.ok nds =>
        if nds.2.1 == 0 then Except.ok (fieldZero, nds.2.2)
        else
          match fieldDiv nds.1 nds.2.1 with
          | Except.error e => Except.error e
          | Except.ok q => Except.ok (q, nds.2.2 + 1)

/-- serialize_field_element: the 8-byte little-endian encoding of the
residue. -/
def serializeFE (v : Nat) : List Nat :=
  (List.range 8).map (fun k => v / 256 ^ k % 256)

/-- The challenge-point sampling step of accumulate. The source loops
on FieldElement::random until the draw is outside the slice
domain[..degree]; the accepted outcomes are the chals parameter here.
Taking the slice panics when degree exceeds the domain length. -/
def samplePoints (domain : List Nat) (degree : Nat) (chals : List Nat) : Except Panic (List Nat) :=
  if degree ≤ domain.length then Except.ok chals else Except.error Panic.sliceOutOfRange

def RSAcc.new : RSAcc :=
  { evaluations := List.replicate EVAL_DOMAIN_SIZE 0
    domain := (List.range EVAL_DOMAIN_SIZE).map (fun i => fieldNew i)
    degree := 0
    merkle_root := (MerkleTree.new []).root }

/-- Accumulate: overwrite the evaluation table with the state, set the
degree, commit to the serialized first degree evaluations with a fresh
Merkle tree, spot-check positions i % degree for i below
NUM_CHALLENGES, and evaluate the polynomial at the sampled
out-of-domain challenge points. -/
def RSAcc.accumulate (acc : RSAcc) (state chals : List Nat) : Except Panic (RSAcc × RSProof) :=
  let degree := state.length
  let leaves := (state.take degree).map serializeFE
  let tree := MerkleTree.new leaves
  let acc2 : RSAcc := { evaluations := state, domain := acc.domain, degree := degree, merkle_root := tree.root }
  match mapExc (fun i => if degree == 0 then Except.error Panic.remainderByZero else Except.ok (i % degree)) (List.range NUM_CHALLENGES) with
  | Except.error e => Except.error e
  | Except.ok eval_indices =>
    match mapExc (fun idx => vecG state idx) eval_indices with
    | Except.error e => Except.error e
    | Except.ok domain_evals =>
      let merkle_proofs := eval_indices.map (fun idx => tree.generate_proof idx)
      match samplePoints acc2.domain degree chals with
      | Except.error e => Except.error e
      | Except.ok challenge_points =>
        match mapExc (fun p =>
            match evaluateAt acc2 p with
            | Except.error e => Except.error e
            | Except.ok r => Except.ok r.1) challenge_points with
        | Except.error e => Except.error e
        | Except.ok challenge_evals =>
          Except.ok (acc2,
            { challenge_evals := challenge_evals
              challenge_points := challenge_points
              domain_evals := domain_evals
              eval_indices := eval_indices
              merkle_root := acc2.merkle_root
              merkle_proofs := merkle_proofs })

/-- The Merkle-check loop of verify: for each spot-checked index and
audit path, re-serialize the claimed value and check the path against
the proof's stored root; false short-circuits. -/
def verifyMerkleLoop (domain_evals : List Nat) (root : List Nat) : List (Nat × List (List Nat)) → Nat → Except Panic Bool
  | [], _ => Except.ok true
  | ip :: rest, i =>
    match vecG domain_evals i with
    | Except.error e => Except.error e
    | Except.ok ev =>
      if MerkleTree.verify_proof root (serializeFE ev) ip.2 ip.1 then
        verifyMerkleLoop domain_evals root rest (i + 1)
      else Except.ok false

/-- The challenge-check loop of verify: recompute the evaluation at
each challenge point from the verifier's own table and compare with
the claimed value; a mismatch short-circuits to false. -/
def verifyChalLoop (acc : RSAcc) (challenge_evals : List Nat) : List Nat → Nat → Except Panic Bool
  | [], _ => Except.ok true
  | point :: rest, i =>
    match vecG challenge_evals i with
    | Except.error e => Except.error e
    | Except.ok expected =>
      match evaluateAt acc point with
      | Except.error e => Except.error e
      | Except.ok computed =>
        if expected == computed.1 then verifyChalLoop acc challenge_evals rest (i + 1)
        else Except.ok false

def RSAcc.verify (acc : RSAcc) (prf : RSProof) : Except Panic Bool :=
  match verifyMerkleLoop prf.domain_evals prf.merkle_root (prf.eval_indices.zip prf.merkle_proofs) 0 with
  | Except.error e => Except.error e
  | Except.ok ok1 =>
    if ok1 then verifyChalLoop acc prf.challenge_evals prf.challenge_points 0
    else Except.ok false

/-- One entry of the combined table built by fold: the entry of self
(zero at or beyond its degree) plus alpha times the entry of other
(zero at or beyond its degree). -/
def foldEntry (A B : RSAcc) (alpha : Nat) (i : Nat) : Except Panic Nat :=
  match (if i < A.degree then vecG A.evaluations i else Except.ok fieldZero) with
  | Except.error e => Except.error e
  | Except.ok se =>
    match (if i < B.degree then vecG B.evaluations i else Except.ok fieldZero) with
    | Except.error e => Except.error e
    | Except.ok oe => Except.ok (fieldAdd se (fieldMul alpha oe))

/-- Fold: with folding coefficient alpha (a FieldElement::random
outcome), combine the two tables up to the larger degree, install the
combined table and degree on self, and re-run accumulate on the
combined values. -/
def RSAcc.fold (acc other : RSAcc) (alpha : Nat) (chals : List Nat) : Except Panic (RSAcc × RSProof) :=
  let maxDeg := max acc.degree other.degree
  match mapExc (foldEntry acc other alpha) (List.range maxDeg) with
  | Except.error e => Except.error e
  | Except.ok newEvals =>
    let acc1 : RSAcc := { acc with evaluations := newEvals, degree := maxDeg }
    RSAcc.accumulate acc1 (newEvals.take maxDeg) chals

/-- The accumulator of a successful accumulate or fold result. -/
def okAcc (r : Except Panic (RSAcc × RSProof)) : RSAcc :=
  match r with
  | Except.ok p => p.1
  | Except.error _ => RSAcc.new

/-- The proof of a successful accumulate or fold result. -/
def okPrf (r : Except Panic (RSAcc × RSProof)) : RSProof :=
  match r with
  | Except.ok p => p.2
  | Except.error _ =>
    { challenge_evals := [], challenge_points := [], domain_evals := []
      eval_indices := [], merkle_root := [], merkle_proofs := [] }

/-- The accumulate-then-verify composition of the round-trip property:
accumulate the state on a fresh accumulator, then verify the returned
proof against the mutated accumulator. -/
def roundTrip (state chals : List Nat) : Except Panic Bool :=
  match RSAcc.accumulate RSAcc.new state chals with
  | Except.error e => Except.error e
  | Except.ok ap => RSAcc.verify ap.1 ap.2

/-! ## Range lemmas for the field operations -/

theorem fieldNew_lt (v : Nat) : fieldNew v < FIELD_PRIME :=
  Nat.mod_lt v (by decide)

theorem powLoop_lt (fuel : Nat) :
    ∀ (e result base : Nat), result < FIELD_PRIME → powLoop fuel e result base < FIELD_PRIME := by
  induction fuel with
  | zero => intro e r b hr; simpa [powLoop] using hr
  | succ fuel ih =>
    intro e r b hr
    simp only [powLoop]
    split
    · apply ih
      split
      · exact fieldNew_lt _
      · exact hr
    · split
      · exact fieldNew_lt _
      · exact hr

theorem fieldPow_lt (a e : Nat) (ha : a < FIELD_PRIME) : fieldPow a e < FIELD_PRIME := by
  unfold fieldPow
  split
  · decide
  · exact powLoop_lt e e a a ha

/-! ## Claim theorems -/

/-- C7: every constructor and operation of the field layer produces a
residue in the interval from 0 up to (excluding) FIELD_PRIME: the
constructor on any raw integer, the zero and one literals, random
draws, addition, subtraction, multiplication, pow on an in-range base,
and inverse when it returns a value. (That operations return fresh
values rather than mutating is immediate in this value-level model;
the provable content is the range invariant.) -/
theorem field_normalization :
    (∀ v, fieldNew v < FIELD_PRIME) ∧
    fieldZero < FIELD_PRIME ∧
    fieldOne < FIELD_PRIME ∧
    (∀ raw, fieldRandom raw < FIELD_PRIME) ∧
    (∀ a b, fieldAdd a b < FIELD_PRIME) ∧
    (∀ a b, fieldSub a b < FIELD_PRIME) ∧
    (∀ a b, fieldMul a b < FIELD_PRIME) ∧
    (∀ a e, a < FIELD_PRIME → fieldPow a e < FIELD_PRIME) ∧
    (∀ a b, a < FIELD_PRIME → fieldInverse a = some b → b < FIELD_PRIME) := by
  refine ⟨fun v => fieldNew_lt v, by decide, by decide, fun raw => fieldNew_lt raw,
    fun a b => fieldNew_lt _, fun a b => fieldNew_lt _, fun a b => fieldNew_lt _,
    fun a e ha => fieldPow_lt a e ha, ?_⟩
  intro a b ha hb
  unfold fieldInverse at hb
  split at hb
  · cases hb
  · exact (Option.some.inj hb) ▸ fieldPow_lt a _ ha

/-- Witness for C7: the pow and inverse clauses applied at base 2. -/
theorem field_normalization_witness :
    fieldPow 2 5 < FIELD_PRIME ∧ 1 < FIELD_PRIME :=
  ⟨field_normalization.2.2.2.2.2.2.2.1 2 5 (by decide),
   field_normalization.2.2.2.2.2.2.2.2 2 1 (by decide) (by rfl)⟩

/-- C3: the claimed inverse law fails on the code. FieldElement::pow
initialises its running result to the base instead of one, so pow
computes the (e+1)-st power; inverse therefore returns
a^(P-1) = 1 for every nonzero a, and 2 * inverse(2) = 2, not 1. -/
theorem inverse_of_two_is_not_an_inverse :
    fieldInverse 2 = some 1 ∧ fieldMul 2 1 ≠ 1 :=
  ⟨rfl, by decide⟩

/-- C6: field division by the additive identity does not produce a
propagating error value in the source; it executes the
panic!("Division by zero") abort, modelled here by the
Panic.divisionByZero branch of fieldDiv. -/
theorem field_div_zero_aborts :
    fieldDiv 1 0 = Except.error Panic.divisionByZero := rfl

/-- C8: a Merkle tree built from zero leaves is a value (not an
error), and its root is the 32-byte all-zero sentinel. -/
theorem empty_tree_zero_root :
    (MerkleTree.new []).root = List.replicate 32 0 := rfl

/-- C10: accumulate on the empty state builds the (empty) Merkle tree
and then computes i % degree with degree = 0, a Rust remainder by
zero, which aborts; no guard in accumulate prevents this, for any
accumulator value and any sampling outcome. -/
theorem accumulate_empty_state_panics (acc : RSAcc) (chals : List Nat) :
    RSAcc.accumulate acc [] chals = Except.error Panic.remainderByZero := rfl

/-- Witness for C10 at the freshly constructed accumulator. -/
theorem accumulate_empty_state_panics_witness :
    RSAcc.accumulate RSAcc.new [] [] = Except.error Panic.remainderByZero :=
  accumulate_empty_state_panics RSAcc.new []

set_option maxRecDepth 10000 in
/-- C5: accumulate on a state of length 257 (one more than
EVAL_DOMAIN_SIZE) stores the whole state, sets degree = 257, commits
to all 257 leaves, and then aborts taking the slice domain[..257] of
the 256-element domain while sampling challenge points. No
StateTooLarge condition exists in the code: the call neither signals
such an error nor truncates, it panics. -/
theorem accumulate_oversized_panics :
    RSAcc.accumulate RSAcc.new (List.replicate 257 1) [300, 301] =
      Except.error Panic.sliceOutOfRange := rfl

set_option maxRecDepth 100000 in
/-- C2: the Merkle round-trip fails on the code for a non-power-of-two
leaf count. With three leaves, leaf 0 occupies heap node 2, a right
child, and generate_proof records its left sibling; verify_proof
branches on the parity of the leaf index (0, even) and hashes the
recomputed node on the left, so the recomputed root differs and the
round-trip returns false. -/
theorem merkle_roundtrip_three_leaves_false :
    MerkleTree.verify_proof (MerkleTree.new [[1], [2], [3]]).root [1]
      ((MerkleTree.new [[1], [2], [3]]).generate_proof 0) 0 = false := rfl

set_option maxRecDepth 100000 in
/-- C1: the accumulate/verify round-trip fails on the code for the
three-element state [1,2,3] (with challenge draws 1000 and 1001, and
likewise for any draws): the spot-check indices are 0 and 1, and the
Merkle audit-path check for index 0 fails for a 3-leaf tree exactly as
in the Merkle round-trip counterexample, so verify returns false. -/
theorem rs_roundtrip_len3_false :
    roundTrip [1, 2, 3] [1000, 1001] = Except.ok false := rfl

/-! ## The barycentric short-circuit (C9) -/

theorem findEval_spec (domain evals : List Nat) (x : Nat) :
    ∀ (rem start i : Nat), i < rem →
      domain[start + i]? = some x →
      start + i < evals.length →
      (∀ j, j < i → domain[start + j]? ≠ some x) →
      findEval domain evals x start rem =
        Except.ok (some (evals.getD (start + i) 0)) := by
  intro rem
  induction rem with
  | zero => intro start i hi _ _ _; omega
  | succ rem ih =>
    intro start i hi hx he hfirst
    cases i with
    | zero =>
      have hx0 : domain[start]? = some x := by simpa using hx
      have he0 : start < evals.length := by simpa using he
      have hev : evals[start]? = some (evals.get ⟨start, he0⟩) := List.getElem?_eq_getElem he0
      simp only [findEval, vecG, hx0, hev, beq_self_eq_true, if_true]
      rw [Nat.add_zero, List.getD_eq_getElem?_getD, hev]
      rfl
    | succ k =>
      have hlen : start + (k + 1) < domain.length := (List.getElem?_eq_some.mp hx).1
      have hs : start < domain.length := by omega
      have hd : domain[start]? = some (domain.get ⟨start, hs⟩) := List.getElem?_eq_getElem hs
      have hne : x ≠ domain.get ⟨start, hs⟩ := by
        intro hcontra
        exact hfirst 0 (Nat.succ_pos k) (by rw [Nat.add_zero, hd, ← hcontra])
      have hbeq : (x == domain.get ⟨start, hs⟩) = false := beq_eq_false_iff_ne.mpr hne
      have harr : start + 1 + k = start + (k + 1) := by omega
      have hrec := ih (start + 1) k (by omega) (by rw [harr]; exact hx)
        (by rw [harr]; exact he)
        (fun j hj => by
          have := hfirst (j + 1) (by omega)
          rw [show start + 1 + j = start + (j + 1) by omega]
          exact this)
      simp only [findEval, vecG, hd, hbeq]
      rw [hrec, harr]
      simp

/-- C9: when the query point equals the domain point at position i,
with i below the degree and i the first such position, evaluate_at
returns the stored evaluation at i by direct lookup and performs zero
field divisions (the division count is the second component). -/
theorem evaluate_at_short_circuit (acc : RSAcc) (i x : Nat)
    (hi : i < acc.degree)
    (hx : acc.domain[i]? = some x)
    (he : i < acc.evaluations.length)
    (hfirst : ∀ j, j < i → acc.domain[j]? ≠ some x) :
    evaluateAt acc x = Except.ok (acc.evaluations.getD i 0, 0) := by
  have hdeg : (acc.degree == 0) = false := beq_eq_false_iff_ne.mpr (by omega)
  have hfind := findEval_spec acc.domain acc.evaluations x acc.degree 0 i hi
    (by simpa using hx) (by simpa using he) (fun j hj => by simpa using hfirst j hj)
  rw [Nat.zero_add] at hfind
  simp only [evaluateAt, hdeg, hfind]
  simp

/-- A concrete accumulator for witnesses: canonical 256-point domain,
table [1, 2], degree 2. -/
def A0 : RSAcc :=
  { evaluations := [1, 2]
    domain := (List.range EVAL_DOMAIN_SIZE).map (fun i => fieldNew i)
    degree := 2
    merkle_root := [] }

set_option maxRecDepth 4000 in
/-- Witness for C9: on A0, querying the domain point 1 (position 1)
returns the stored table entry 2 with no divisions. -/
theorem evaluate_at_short_circuit_witness :
    evaluateAt A0 1 = Except.ok (2, 0) := by
  have h := evaluate_at_short_circuit A0 1 1 (by decide) (by decide) (by decide)
    (fun j hj => by
      have hj0 : j = 0 := Nat.lt_one_iff.mp hj
      subst hj0
      decide)
  simpa using h

theorem mapExc_ok_getD {α β : Type} (f : α → Except Panic β) (d1 : α) (d2 : β) :
    ∀ (xs : List α) (ys : List β), mapExc f xs = Except.ok ys →
      ys.length = xs.length ∧
      ∀ i, i < xs.length → f (xs.getD i d1) = Except.ok (ys.getD i d2) := by
  intro xs
  induction xs with
  | nil =>
    intro ys h
    simp only [mapExc] at h
    cases h
    simp
  | cons a as ih =>
    intro ys h
    simp only [mapExc] at h
    cases hfa : f a with
    | error e =>
      simp only [hfa] at h
      cases h
    | ok b =>
      simp only [hfa] at h
      cases hrest : mapExc f as with
      | error e =>
        simp only [hrest] at h
        cases h
      | ok bs =>
        simp only [hrest] at h
        cases h
        obtain ⟨hlen, hget⟩ := ih bs hrest
        constructor
        · simp [hlen]
        · intro i hi
          cases i with
          | zero => simpa using hfa
          | succ j =>
            have hj : j < as.length := by simpa using hi
            simpa using hget j hj

theorem accumulate_ok_inv (acc : RSAcc) (state chals : List Nat) (out : RSAcc × RSProof)
    (h : RSAcc.accumulate acc state chals = Except.ok out) :
    out.1.evaluations = state ∧ out.1.degree = state.length := by
  simp only [RSAcc.accumulate] at h
  split at h
  · cases h
  · split at h
    · cases h
    · split at h
      · cases h
      · split at h
        · cases h
        · cases h
          exact ⟨rfl, rfl⟩

/-- C4: after fold with coefficient alpha, for every domain position i
below the larger input degree the table entry is orig self entry (zero
at or beyond its degree) plus alpha times orig other entry (zero at or
beyond its degree), and the degree becomes the larger input degree. -/
theorem rs_fold_linearity (A B : RSAcc) (alpha : Nat) (chals : List Nat)
    (h : (RSAcc.fold A B alpha chals).isOk = true) :
    (okAcc (RSAcc.fold A B alpha chals)).degree = max A.degree B.degree ∧
    ∀ i, i < max A.degree B.degree →
      (okAcc (RSAcc.fold A B alpha chals)).evaluations.getD i 0 =
        fieldAdd (if i < A.degree then A.evaluations.getD i 0 else fieldZero)
          (fieldMul alpha (if i < B.degree then B.evaluations.getD i 0 else fieldZero)) := by
  cases hm : mapExc (foldEntry A B alpha) (List.range (max A.degree B.degree)) with
  | error e =>
    simp only [RSAcc.fold, hm] at h
    simp [Except.isOk, Except.toBool] at h
  | ok newEvals =>
    obtain ⟨hlen, hget⟩ := mapExc_ok_getD (foldEntry A B alpha) 0 0
      (List.range (max A.degree B.degree)) newEvals hm
    rw [List.length_range] at hlen
    have htake : newEvals.take (max A.degree B.degree) = newEvals :=
      List.take_of_length_le (le_of_eq hlen)
    have hfold : RSAcc.fold A B alpha chals =
        RSAcc.accumulate { A with evaluations := newEvals, degree := max A.degree B.degree } newEvals chals := by
      simp only [RSAcc.fold, hm, htake]
    rw [hfold] at h ⊢
    cases hacc : RSAcc.accumulate { A with evaluations := newEvals, degree := max A.degree B.degree } newEvals chals with
    | error e =>
      rw [hacc] at h
      simp [Except.isOk, Except.toBool] at h
    | ok out =>
      obtain ⟨hev, hdeg⟩ := accumulate_ok_inv _ newEvals chals out hacc
      simp only [okAcc]
      constructor
      · rw [hdeg, hlen]
      · intro i hi
        rw [hev]
        have hfi := hget i (by rwa [List.length_range])
        rw [List.getD_eq_getElem?_getD, List.getElem?_range hi] at hfi
        simp only [Option.getD_some] at hfi
        unfold foldEntry at hfi
        by_cases hA : i < A.degree
        · rw [if_pos hA] at hfi ⊢
          cases hva : A.evaluations[i]? with
          | none =>
            simp only [vecG, hva] at hfi
            cases hfi
          | some sa =>
            simp only [vecG, hva] at hfi
            by_cases hB : i < B.degree
            · rw [if_pos hB] at hfi ⊢
              cases hvb : B.evaluations[i]? with
              | none =>
                simp only [vecG, hvb] at hfi
                cases hfi
              | some sb =>
                simp only [vecG, hvb] at hfi
                rw [show A.evaluations.getD i 0 = sa from by
                      rw [List.getD_eq_getElem?_getD, hva, Option.getD_some],
                    show B.evaluations.getD i 0 = sb from by
                      rw [List.getD_eq_getElem?_getD, hvb, Option.getD_some]]
                exact (Except.ok.inj hfi).symm
            · rw [if_neg hB] at hfi ⊢
              rw [show A.evaluations.getD i 0 = sa from by
                    rw [List.getD_eq_getElem?_getD, hva, Option.getD_some]]
              exact (Except.ok.inj hfi).symm
        · rw [if_neg hA] at hfi ⊢
          by_cases hB : i < B.degree
          · rw [if_pos hB] at hfi ⊢
            cases hvb : B.evaluations[i]? with
            | none =>
              simp only [vecG, hvb] at hfi
              cases hfi
            | some sb =>
              simp only [vecG, hvb] at hfi
              rw [show B.evaluations.getD i 0 = sb from by
                    rw [List.getD_eq_getElem?_getD, hvb, Option.getD_some]]
              exact (Except.ok.inj hfi).symm
          · rw [if_neg hB] at hfi ⊢
            exact (Except.ok.inj hfi).symm

/-- A second concrete accumulator for the fold witness: table
[3, 4, 5], degree 3. -/
def B0 : RSAcc :=
  { evaluations := [3, 4, 5]
    domain := (List.range EVAL_DOMAIN_SIZE).map (fun i => fieldNew i)
    degree := 3
    merkle_root := [] }

set_option maxRecDepth 100000 in
/-- Witness for C4: folding A0 (table [1,2]) with B0 (table [3,4,5])
under alpha = 5 succeeds, and the entry at position 1 is
2 + 5 * 4. -/
theorem rs_fold_linearity_witness :
    (okAcc (RSAcc.fold A0 B0 5 [300, 301])).evaluations.getD 1 0 =
      fieldAdd (if 1 < A0.degree then A0.evaluations.getD 1 0 else fieldZero)
        (fieldMul 5 (if 1 < B0.degree then B0.evaluations.getD 1 0 else fieldZero)) :=
  (rs_fold_linearity A0 B0 5 [300, 301] (by rfl)).2 1 (by decide)
